import Mathlib

/-
Verification of the emcee3 ensemble-MCMC core against its specification.

The Python sources are shallowly embedded over exact rationals:
* a log-prior / log-likelihood / log-probability value is an element of
  `XQ` (a rational, or negative infinity for an infeasible point — the
  data model of spec section 3, where `-inf` is the only permitted
  non-finite log value);
* coordinate vectors are functions `Fin d → ℚ` (or `Fin d → XQ` where the
  source applies `np.isfinite` to a coordinate matrix);
* the shared numpy random stream is an explicit stream of rationals with
  a cursor, consumed in program order, so that the exact order in which
  draws are consumed (including Python short-circuit evaluation) is part
  of the model;
* irrational primitives (`np.exp`, `np.sqrt`, `np.log`) are abstracted as
  function parameters wherever the statements proved do not depend on
  their analytic properties.
-/

set_option autoImplicit false

attribute [local semireducible] Rat.mul Rat.inv Rat.add Rat.sub

namespace Emcee

/-- Extended log-value: either a finite rational or negative infinity.
Per the data model of the spec (section 3) `log_prior`, `log_likelihood`
and `log_probability` are reals with `-inf` permitted to mark an
infeasible point. -/
inductive XQ where
  | negInf : XQ
  | fin : ℚ → XQ
  deriving DecidableEq, Repr

namespace XQ

/-- `np.isfinite` on an extended log-value. -/
def isFinite : XQ → Bool
  | negInf => false
  | fin _ => true

/-- Addition of extended log-values (`-inf` absorbs). -/
def add : XQ → XQ → XQ
  | negInf, _ => negInf
  | fin _, negInf => negInf
  | fin a, fin b => fin (a + b)

/-- Add a finite rational to an extended log-value. -/
def addQ : XQ → ℚ → XQ
  | negInf, _ => negInf
  | fin a, b => fin (a + b)

/-- Subtract a finite rational from an extended log-value. -/
def subQ : XQ → ℚ → XQ
  | negInf, _ => negInf
  | fin a, b => fin (a - b)

/-- Strict order: is the finite rational `a` less than the extended
value? (`a < -inf` is always false.) -/
def qlt (a : ℚ) : XQ → Bool
  | negInf => false
  | fin b => decide (a < b)

/-- Strict order: is the extended value greater than the finite rational
`b`? (`-inf > b` is always false.) -/
def gtQ : XQ → ℚ → Bool
  | negInf, _ => false
  | fin a, b => decide (b < a)

end XQ

/-- `np.exp` on an extended log-value, given an abstract exponential `e`
for the finite case; `np.exp(-inf) = 0`. -/
def expX (e : ℚ → ℚ) : XQ → ℚ
  | XQ.negInf => 0
  | XQ.fin a => e a

/-- The ensemble-owned numpy random stream: an infinite sequence of
rationals together with a cursor.  Each call to the generator returns the
value under the cursor and advances it, so draw order is explicit. -/
structure Rng where
  seq : ℕ → ℚ
  k : ℕ

/-- Consume one draw from the stream. -/
def Rng.next (r : Rng) : ℚ × Rng :=
  (r.seq r.k, { r with k := r.k + 1 })

/-- `np.dot` of two coordinate vectors. -/
def dot {d : ℕ} (x y : Fin d → ℚ) : ℚ := ∑ i, x i * y i

/-! ## `ensemble.py` — the `Ensemble` class

Walkers, the coordinate matrix and the per-walker log-value arrays, with
the finiteness checks of `Ensemble.__init__` (lines 61-64) and
`Ensemble.update` (lines 95-100).  Coordinates are stored as extended
values here because `Ensemble.update` applies `np.isfinite` to the whole
coordinate matrix. -/

/-- One walker as produced by the model adapter: its stored coordinates
and the two log-values it exposes (`coords`, `lnprior`, `lnlike`). -/
structure Walker (d : ℕ) where
  coords : Fin d → XQ
  lnprior : XQ
  lnlike : XQ
  deriving DecidableEq

/-- The `Ensemble` state: the walker list, the `_coords` matrix and the
`_lnprior` / `_lnlike` arrays, plus the per-walker acceptance flags. -/
structure Ensemble (d : ℕ) where
  walkers : List (Walker d)
  coordsMat : List (Fin d → XQ)
  lnpriorArr : List XQ
  lnlikeArr : List XQ
  acceptance : List Bool
  deriving DecidableEq

/-- Is every component of a stored coordinate row finite? -/
def rowFinite {d : ℕ} (c : Fin d → XQ) : Bool :=
  (List.ofFn c).all XQ.isFinite

/-- `Ensemble.__init__`: build the walkers by mapping the walker model
over the initial coordinate rows, fill the `_lnprior` / `_lnlike` arrays
from them, and raise `ValueError` unless all of those log-values are
finite (`ensemble.py` lines 39-64).  The coordinate matrix itself is not
checked at construction. -/
def Ensemble.init {d : ℕ} (model : (Fin d → XQ) → Walker d)
    (coords : List (Fin d → XQ)) : Except String (Ensemble d) :=
  if ((coords.map model).map Walker.lnprior).all XQ.isFinite
      && ((coords.map model).map Walker.lnlike).all XQ.isFinite then
    Except.ok
      { walkers := coords.map model
        coordsMat := coords
        lnpriorArr := (coords.map model).map Walker.lnprior
        lnlikeArr := (coords.map model).map Walker.lnlike
        acceptance := (coords.map model).map fun _ => true }
  else
    Except.error "Invalid (un-allowed) initial coordinates"

/-- `Ensemble.update`: refresh the coordinate matrix and the log-value
arrays from the current walker list, then raise `RuntimeError` unless the
whole coordinate matrix and both log-value arrays are finite
(`ensemble.py` lines 83-100). -/
def Ensemble.update {d : ℕ} (e : Ensemble d) : Except String (Ensemble d) :=
  if (e.walkers.map Walker.coords).all rowFinite
      && (e.walkers.map Walker.lnprior).all XQ.isFinite
      && (e.walkers.map Walker.lnlike).all XQ.isFinite then
    Except.ok
      { e with
        coordsMat := e.walkers.map Walker.coords
        lnpriorArr := e.walkers.map Walker.lnprior
        lnlikeArr := e.walkers.map Walker.lnlike }
  else
    Except.error "An invalid proposal was accepted"

/-- A stored coordinate row is finite exactly when each component is. -/
theorem rowFinite_iff {d : ℕ} (c : Fin d → XQ) :
    rowFinite c = true ↔ ∀ i, (c i).isFinite = true := by
  simp only [rowFinite, List.all_eq_true, List.mem_ofFn]
  constructor
  · intro h i
    exact h _ ⟨i, rfl⟩
  · rintro h x ⟨i, rfl⟩
    exact h i

/-- The construction check of `Ensemble.__init__` passes exactly when
every walker's log-values are finite. -/
theorem initCheck_iff {d : ℕ} (ws : List (Walker d)) :
    ((ws.map Walker.lnprior).all XQ.isFinite
      && (ws.map Walker.lnlike).all XQ.isFinite) = true
    ↔ ∀ w ∈ ws, w.lnprior.isFinite = true ∧ w.lnlike.isFinite = true := by
  simp only [Bool.and_eq_true, List.all_eq_true, List.mem_map]
  constructor
  · rintro ⟨h1, h2⟩ w hw
    exact ⟨h1 _ ⟨w, hw, rfl⟩, h2 _ ⟨w, hw, rfl⟩⟩
  · intro h
    constructor
    · rintro x ⟨w, hw, rfl⟩
      exact (h w hw).1
    · rintro x ⟨w, hw, rfl⟩
      exact (h w hw).2

/-- The consistency check of `Ensemble.update` passes exactly when every
walker's coordinates and log-values are finite. -/
theorem updateCheck_iff {d : ℕ} (ws : List (Walker d)) :
    ((ws.map Walker.coords).all rowFinite
      && (ws.map Walker.lnprior).all XQ.isFinite
      && (ws.map Walker.lnlike).all XQ.isFinite) = true
    ↔ ∀ w ∈ ws, (∀ i, (w.coords i).isFinite = true)
        ∧ w.lnprior.isFinite = true ∧ w.lnlike.isFinite = true := by
  simp only [Bool.and_eq_true, List.all_eq_true, List.mem_map]
  constructor
  · rintro ⟨⟨h0, h1⟩, h2⟩ w hw
    exact ⟨(rowFinite_iff _).mp (h0 _ ⟨w, hw, rfl⟩),
      h1 _ ⟨w, hw, rfl⟩, h2 _ ⟨w, hw, rfl⟩⟩
  · intro h
    refine ⟨⟨?_, ?_⟩, ?_⟩
    · rintro x ⟨w, hw, rfl⟩
      exact (rowFinite_iff _).mpr (h w hw).1
    · rintro x ⟨w, hw, rfl⟩
      exact (h w hw).2.1
    · rintro x ⟨w, hw, rfl⟩
      exact (h w hw).2.2

/-- C1: immediately after a successful construction every walker's
`lnprior` and `lnlike` are finite, and a construction from any walker
with a non-finite log-value raises the invalid-initial-coordinates
`ValueError` instead of returning; immediately after a successful
`Ensemble.update` every walker's stored coordinates, `lnprior` and
`lnlike` are finite, and an update from any non-finite walker raises the
invalid-proposal-accepted `RuntimeError` instead of returning. -/
theorem ensemble_finite_invariant {d : ℕ} (model : (Fin d → XQ) → Walker d)
    (coords : List (Fin d → XQ)) (e0 e1 e2 : Ensemble d) :
    (Ensemble.init model coords = Except.ok e0 →
      ∀ w ∈ e0.walkers, w.lnprior.isFinite = true ∧ w.lnlike.isFinite = true)
    ∧ ((¬ ∀ w ∈ coords.map model,
          w.lnprior.isFinite = true ∧ w.lnlike.isFinite = true) →
      Ensemble.init model coords =
        Except.error "Invalid (un-allowed) initial coordinates")
    ∧ (Ensemble.update e1 = Except.ok e2 →
      ∀ w ∈ e2.walkers, (∀ i, (w.coords i).isFinite = true)
        ∧ w.lnprior.isFinite = true ∧ w.lnlike.isFinite = true)
    ∧ ((¬ ∀ w ∈ e1.walkers, (∀ i, (w.coords i).isFinite = true)
          ∧ w.lnprior.isFinite = true ∧ w.lnlike.isFinite = true) →
      Ensemble.update e1 = Except.error "An invalid proposal was accepted") := by
  refine ⟨?_, ?_, ?_, ?_⟩
  · intro h w hw
    unfold Ensemble.init at h
    split at h
    · next hc =>
      cases h
      exact (initCheck_iff _).mp hc w hw
    · exact absurd h (by simp)
  · intro h
    unfold Ensemble.init
    exact if_neg (fun hc => h ((initCheck_iff _).mp hc))
  · intro h w hw
    unfold Ensemble.update at h
    split at h
    · next hc =>
      cases h
      exact (updateCheck_iff _).mp hc w hw
    · exact absurd h (by simp)
  · intro h
    unfold Ensemble.update
    exact if_neg (fun hc => h ((updateCheck_iff _).mp hc))

/-- A concrete well-behaved walker model for the witness. -/
def wModel : (Fin 1 → XQ) → Walker 1 :=
  fun c => { coords := c, lnprior := XQ.fin 0, lnlike := XQ.fin 0 }

/-- A concrete walker model whose prior is infeasible everywhere. -/
def bModel : (Fin 1 → XQ) → Walker 1 :=
  fun c => { coords := c, lnprior := XQ.negInf, lnlike := XQ.fin 0 }

/-- The concrete walker built by `wModel`. -/
def wWalker : Walker 1 := wModel (fun _ => XQ.fin 1)

/-- The ensemble produced by constructing from one feasible walker. -/
def wEns : Ensemble 1 :=
  { walkers := [wWalker]
    coordsMat := [fun _ => XQ.fin 1]
    lnpriorArr := [XQ.fin 0]
    lnlikeArr := [XQ.fin 0]
    acceptance := [true] }

/-- An ensemble holding one infeasible walker. -/
def bEns : Ensemble 1 :=
  { walkers := [bModel (fun _ => XQ.fin 1)]
    coordsMat := [fun _ => XQ.fin 1]
    lnpriorArr := [XQ.negInf]
    lnlikeArr := [XQ.fin 0]
    acceptance := [true] }

theorem ensemble_finite_invariant_witness :
    (wWalker.lnprior.isFinite = true ∧ wWalker.lnlike.isFinite = true)
    ∧ Ensemble.init bModel [fun _ => XQ.fin 1] =
        Except.error "Invalid (un-allowed) initial coordinates"
    ∧ ((∀ i, (wWalker.coords i).isFinite = true)
        ∧ wWalker.lnprior.isFinite = true ∧ wWalker.lnlike.isFinite = true)
    ∧ Ensemble.update bEns = Except.error "An invalid proposal was accepted" :=
  ⟨(ensemble_finite_invariant wModel [fun _ => XQ.fin 1] wEns wEns wEns).1
      rfl wWalker (List.Mem.head _),
    (ensemble_finite_invariant bModel [fun _ => XQ.fin 1] wEns wEns wEns).2.1
      (by decide),
    (ensemble_finite_invariant wModel [fun _ => XQ.fin 1] wEns wEns wEns).2.2.1
      rfl wWalker (List.Mem.head _),
    (ensemble_finite_invariant wModel [fun _ => XQ.fin 1] wEns bEns wEns).2.2.2
      (by decide)⟩

/-! ## `moves/hmc.py` — the Hamiltonian move

`_hmc_wrapper.__call__` (lines 51-92) integrates the dynamics with the
leapfrog scheme and returns the proposed state together with the extra
log-acceptance factor; `HamiltonianMove.update` (lines 181-190) applies
the Metropolis test `lnpdiff > log(rand())`.  The model adapter is a pair
of functions: `lnprobAt` for the log-probability and `grad` for the
gradient of the log-probability (the source obtains both from
`model.get_state(q, compute_grad=True)`, a pure function of `q`). -/

/-- `_hmc_vector.apply`: multiply componentwise by the stored diagonal
covariance (the inverse mass matrix). -/
def hmcVectorApply {d : ℕ} (cov : Fin d → ℚ) (x : Fin d → ℚ) : Fin d → ℚ :=
  fun i => cov i * x i

/-- The leapfrog loop of `_hmc_wrapper.__call__` (lines 59-82): a half
momentum step at the current position, then `for i in xrange(L)` a full
position step followed, except on the last pass, by a full momentum step
at the new position, then the closing half momentum step, and finally the
momentum negation.  Returns the final `(q, p)`. -/
def hmcIntegrate {d : ℕ} (grad covA : (Fin d → ℚ) → Fin d → ℚ)
    (eps : ℚ) (L : ℕ) (q0 p0 : Fin d → ℚ) : (Fin d → ℚ) × (Fin d → ℚ) :=
  let p1 := p0 + (1 / 2 * eps) • grad q0
  let qp := (List.range L).foldl
    (fun (qp : (Fin d → ℚ) × (Fin d → ℚ)) i =>
      let q2 := qp.1 + eps • covA qp.2
      (q2, if i < L - 1 then qp.2 + eps • grad q2 else qp.2))
    (q0, p1)
  (qp.1, -(qp.2 + (1 / 2 * eps) • grad qp.1))

/-- A full or half momentum kick: add `h` times the gradient at the
current position to the momentum. -/
def momKick {d : ℕ} (grad : (Fin d → ℚ) → Fin d → ℚ) (h : ℚ)
    (qp : (Fin d → ℚ) × (Fin d → ℚ)) : (Fin d → ℚ) × (Fin d → ℚ) :=
  (qp.1, qp.2 + h • grad qp.1)

/-- A full position drift: advance the position by `eps` times the
inverse mass matrix applied to the momentum. -/
def posDrift {d : ℕ} (covA : (Fin d → ℚ) → Fin d → ℚ) (eps : ℚ)
    (qp : (Fin d → ℚ) × (Fin d → ℚ)) : (Fin d → ℚ) × (Fin d → ℚ) :=
  (qp.1 + eps • covA qp.2, qp.2)

/-- The leapfrog scheme as the spec states it: one half-step momentum
update at the current position, then `L` alternating full position /
momentum updates with the gradient re-evaluated at each new position
(the `L`-th momentum update being the closing half step), and a final
momentum negation. -/
def leapfrogSpec {d : ℕ} (grad covA : (Fin d → ℚ) → Fin d → ℚ)
    (eps : ℚ) (L : ℕ) (q0 p0 : Fin d → ℚ) : (Fin d → ℚ) × (Fin d → ℚ) :=
  let s1 := momKick grad (1 / 2 * eps) (q0, p0)
  let s2 := (momKick grad eps ∘ posDrift covA eps)^[L - 1] s1
  let s3 := momKick grad (1 / 2 * eps) (posDrift covA eps s2)
  (s3.1, -s3.2)

theorem foldl_range_iterate {α : Type} (g : α → α) (h : α → ℕ → α) :
    ∀ (n : ℕ), (∀ i, i < n → ∀ s, h s i = g s) →
      ∀ s : α, (List.range n).foldl h s = g^[n] s := by
  intro n
  induction n with
  | zero => intro _ s; rfl
  | succ m ih =>
    intro hyp s
    rw [List.range_succ, List.foldl_append]
    rw [ih (fun i hi s => hyp i (Nat.lt_succ_of_lt hi) s) s]
    simp only [List.foldl_cons, List.foldl_nil]
    rw [hyp m (Nat.lt_succ_self m), Function.iterate_succ_apply']

/-- C5: for every step size and every step count `L ≥ 1`, the integrator
of `_hmc_wrapper.__call__` computes exactly the leapfrog scheme described
by the spec: a half momentum kick at the initial position, `L` position
drifts alternating with momentum kicks re-evaluated at each new position
(full kicks between drifts, a closing half kick after the last drift),
followed by negation of the momentum. -/
theorem hmc_leapfrog_structure {d : ℕ}
    (grad covA : (Fin d → ℚ) → Fin d → ℚ) (eps : ℚ) (L : ℕ)
    (q0 p0 : Fin d → ℚ) (hL : 1 ≤ L) :
    hmcIntegrate grad covA eps L q0 p0 = leapfrogSpec grad covA eps L q0 p0 := by
  obtain ⟨K, rfl⟩ : ∃ K, L = K + 1 :=
    ⟨L - 1, (Nat.succ_pred_eq_of_pos hL).symm⟩
  unfold hmcIntegrate leapfrogSpec
  have hfold :
      (List.range (K + 1)).foldl
        (fun (qp : (Fin d → ℚ) × (Fin d → ℚ)) i =>
          let q2 := qp.1 + eps • covA qp.2
          (q2, if i < K + 1 - 1 then qp.2 + eps • grad q2 else qp.2))
        (q0, p0 + (1 / 2 * eps) • grad q0)
      = posDrift covA eps
          ((momKick grad eps ∘ posDrift covA eps)^[K]
            (momKick grad (1 / 2 * eps) (q0, p0))) := by
    rw [List.range_succ, List.foldl_append]
    rw [foldl_range_iterate (momKick grad eps ∘ posDrift covA eps)
      _ K (fun i hi s => by
        simp only [Nat.add_sub_cancel, hi, if_pos]
        rfl)
      (q0, p0 + (1 / 2 * eps) • grad q0)]
    simp only [List.foldl_cons, List.foldl_nil, Nat.add_sub_cancel,
      lt_irrefl, if_neg, Nat.lt_irrefl]
    rfl
  simp only [Nat.add_sub_cancel]
  simp only [Nat.add_sub_cancel] at hfold
  rw [show momKick grad (1 / 2 * eps) (q0, p0)
      = (q0, p0 + (1 / 2 * eps) • grad q0) from rfl] at hfold
  rw [hfold]
  rfl

theorem hmc_leapfrog_structure_witness :
    1 ≤ 2 ∧
    hmcIntegrate (d := 1) (fun q => q) (fun p => p) 1 2
        (fun _ => 1) (fun _ => 0)
      = leapfrogSpec (fun q => q) (fun p => p) 1 2
        (fun _ => 1) (fun _ => 0) :=
  ⟨by decide,
    hmc_leapfrog_structure (fun q => q) (fun p => p) 1 2
      (fun _ => 1) (fun _ => 0) (by decide)⟩

/-- The result of one `_hmc_wrapper.__call__`: the proposed state (its
coordinates and log-probability, with `accepted` initialized to false)
and the extra log-acceptance factor. -/
structure HOut (d : ℕ) where
  coords : Fin d → ℚ
  lnprob : XQ
  accepted : Bool
  factor : XQ
  deriving DecidableEq

/-- `_hmc_wrapper.__call__` (lines 51-92): integrate the dynamics, then
return factor `0.0` for a non-finite final log-probability (the walker is
then automatically rejected), and otherwise the kinetic-energy difference
`0.5*dot(p_initial, cov.apply(p_initial)) - 0.5*dot(p, cov.apply(p))`
computed with the negated final momentum. -/
def hmcCall {d : ℕ} (lnprobAt : (Fin d → ℚ) → XQ)
    (grad covA : (Fin d → ℚ) → Fin d → ℚ)
    (eps : ℚ) (L : ℕ) (q0 p0 : Fin d → ℚ) : HOut d :=
  if (lnprobAt (hmcIntegrate grad covA eps L q0 p0).1).isFinite = false then
    { coords := (hmcIntegrate grad covA eps L q0 p0).1
      lnprob := lnprobAt (hmcIntegrate grad covA eps L q0 p0).1
      accepted := false
      factor := XQ.fin 0 }
  else
    { coords := (hmcIntegrate grad covA eps L q0 p0).1
      lnprob := lnprobAt (hmcIntegrate grad covA eps L q0 p0).1
      accepted := false
      factor := XQ.fin (dot p0 (covA p0) / 2
        - dot (hmcIntegrate grad covA eps L q0 p0).2
            (covA (hmcIntegrate grad covA eps L q0 p0).2) / 2) }

/-- The acceptance test of `HamiltonianMove.update` (lines 183-187):
`lnpdiff = factor + state.lnprob - ensemble.walkers[j].lnprob` and the
walker is accepted iff `lnpdiff > log(rand())`.  The stored walker's
log-probability `old` is finite by the ensemble invariant, and the
uniform draw is represented by its logarithm `logu`. -/
def outerAccept (factor newLn : XQ) (old logu : ℚ) : Bool :=
  XQ.qlt logu ((XQ.add factor newLn).subQ old)

/-- C6: whenever the final log-probability of an HMC proposal is
non-finite, the wrapper returns factor `0.0` and the outer acceptance
test rejects for every possible uniform draw (acceptance probability 0);
otherwise the returned factor is half the initial kinetic energy
`p0·M⁻¹·p0` minus half the final kinetic energy `p1·M⁻¹·p1` (with `p1`
the integrator's final momentum; negation does not change it), and it
enters the standard `log(u) < factor + new - old` test. -/
theorem hmc_factor_and_rejection {d : ℕ} (lnprobAt : (Fin d → ℚ) → XQ)
    (grad : (Fin d → ℚ) → Fin d → ℚ) (cov : Fin d → ℚ)
    (eps : ℚ) (L : ℕ) (q0 p0 : Fin d → ℚ) (old logu : ℚ) :
    ((hmcCall lnprobAt grad (hmcVectorApply cov) eps L q0 p0).lnprob.isFinite
        = false →
      (hmcCall lnprobAt grad (hmcVectorApply cov) eps L q0 p0).factor
          = XQ.fin 0
      ∧ outerAccept
          (hmcCall lnprobAt grad (hmcVectorApply cov) eps L q0 p0).factor
          (hmcCall lnprobAt grad (hmcVectorApply cov) eps L q0 p0).lnprob
          old logu = false)
    ∧ ((hmcCall lnprobAt grad (hmcVectorApply cov) eps L q0 p0).lnprob.isFinite
        = true →
      (hmcCall lnprobAt grad (hmcVectorApply cov) eps L q0 p0).factor
        = XQ.fin (dot p0 (hmcVectorApply cov p0) / 2
            - dot (-(hmcIntegrate grad (hmcVectorApply cov) eps L q0 p0).2)
                (hmcVectorApply cov
                  (-(hmcIntegrate grad (hmcVectorApply cov) eps L q0 p0).2))
              / 2)) := by
  have hquad : ∀ x : Fin d → ℚ,
      dot (-x) (hmcVectorApply cov (-x)) = dot x (hmcVectorApply cov x) := by
    intro x
    unfold dot hmcVectorApply
    apply Finset.sum_congr rfl
    intro i _
    simp only [Pi.neg_apply]
    ring
  cases hln : lnprobAt (hmcIntegrate grad (hmcVectorApply cov) eps L q0 p0).1
  · constructor
    · intro _
      simp only [hmcCall, hln, XQ.isFinite, if_pos]
      exact ⟨trivial, rfl⟩
    · intro h
      simp only [hmcCall, hln, XQ.isFinite, if_pos] at h
      exact absurd h (by decide)
  · constructor
    · intro h
      simp only [hmcCall, hln, XQ.isFinite, Bool.true_eq_false, if_neg,
        if_false] at h
    · intro _
      simp only [hmcCall, hln, XQ.isFinite, Bool.true_eq_false, if_false]
      rw [hquad]

/-- A constant-zero gradient for the HMC witnesses. -/
def hGrad : (Fin 1 → ℚ) → Fin 1 → ℚ := fun _ _ => 0

/-- A unit diagonal covariance for the HMC witnesses. -/
def hCov : Fin 1 → ℚ := fun _ => 1

/-- A concrete coordinate and momentum vector for the HMC witnesses. -/
def hQ0 : Fin 1 → ℚ := fun _ => 1

/-- A model that is infeasible everywhere, for the rejection witness. -/
def lnNeg : (Fin 1 → ℚ) → XQ := fun _ => XQ.negInf

/-- A model with finite log-probability, for the factor witness. -/
def lnFin : (Fin 1 → ℚ) → XQ := fun _ => XQ.fin 5

theorem hmc_factor_and_rejection_witness :
    ((hmcCall lnNeg hGrad (hmcVectorApply hCov) 1 1 hQ0 hQ0).factor = XQ.fin 0
      ∧ outerAccept
          (hmcCall lnNeg hGrad (hmcVectorApply hCov) 1 1 hQ0 hQ0).factor
          (hmcCall lnNeg hGrad (hmcVectorApply hCov) 1 1 hQ0 hQ0).lnprob
          0 (-1) = false)
    ∧ (hmcCall lnFin hGrad (hmcVectorApply hCov) 1 1 hQ0 hQ0).factor
        = XQ.fin (dot hQ0 (hmcVectorApply hCov hQ0) / 2
            - dot (-(hmcIntegrate hGrad (hmcVectorApply hCov) 1 1 hQ0 hQ0).2)
                (hmcVectorApply hCov
                  (-(hmcIntegrate hGrad (hmcVectorApply hCov) 1 1 hQ0 hQ0).2))
              / 2) :=
  ⟨(hmc_factor_and_rejection lnNeg hGrad hCov 1 1 hQ0 hQ0 0 (-1)).1 (by decide),
    (hmc_factor_and_rejection lnFin hGrad hCov 1 1 hQ0 hQ0 0 (-1)).2 (by decide)⟩

/-! ## `moves/nuts.py` — the no-U-turn move

`_nuts_wrapper.__call__` (lines 59-100) runs the top-level doubling loop.
The recursive `build_tree` is abstracted as an oracle parameter: given
the edge state it is started from, the slice variable `u`, the direction
`v`, the depth `j` and the random stream, it returns
`(state_minus, state_plus, state_proposal, n_proposal, s, stream)` — the
shape of the value `build_tree` returns at lines 35 and 57. -/

/-- One trajectory state during NUTS tree construction: coordinates,
attached momentum, log-probability and the acceptance flag. -/
structure NState (d : ℕ) where
  coords : Fin d → ℚ
  momentum : Fin d → ℚ
  logProb : XQ
  accepted : Bool
  deriving DecidableEq

/-- The signature of `build_tree`. -/
def TreeOracle (d : ℕ) :=
  NState d → ℚ → ℚ → ℕ → Rng →
    NState d × NState d × NState d × ℕ × Bool × Rng

/-- The loop state of the top-level doubling loop in
`_nuts_wrapper.__call__`: the two edge states, the current proposal, the
accumulated valid-point count `n`, the random stream and the break
flag. -/
structure NutsLoop (d : ℕ) where
  sMinus : NState d
  sPlus : NState d
  current : NState d
  n : ℕ
  rng : Rng
  done : Bool

/-- The direction draw `v = 1.0 - 2.0 * (self.random.rand() < 0.5)` of
`nuts.py` line 76. -/
def nutsDir (r : Rng) : ℚ :=
  1 - 2 * (if (r.next).1 < 1 / 2 then 1 else 0)

/-- One iteration of the top-level doubling loop (`nuts.py` lines
76-94): draw the direction `v`, build the new subtree — the source passes
`state_minus` as the starting edge in BOTH direction branches (lines 78
and 82) — then, if `s` is true, draw a uniform and replace the current
proposal when the draw is below `float(n_pr) / n`, accumulate `n`, and
set the break flag on `s == 0` or on a U-turn between the two edges. -/
def nutsStep {d : ℕ} (tree : TreeOracle d) (u : ℚ) (st : NutsLoop d)
    (j : ℕ) : NutsLoop d :=
  if st.done then st else
  let rng1 := (st.rng.next).2
  let v : ℚ := nutsDir st.rng
  let r := tree st.sMinus u v j rng1
  let sMinus := if v < 0 then r.1 else st.sMinus
  let sPlus := if v < 0 then st.sPlus else r.2.1
  let statePr := r.2.2.1
  let nPr := r.2.2.2.1
  let s := r.2.2.2.2.1
  let rng2 := r.2.2.2.2.2
  let accDraw := (rng2.next).1
  let rng3 := if s then (rng2.next).2 else rng2
  let replace := s && decide (accDraw < (nPr : ℚ) / st.n)
  let current := if replace then { statePr with accepted := true } else st.current
  let delta := sPlus.coords - sMinus.coords
  let uturn := s = false ∨ dot delta sMinus.momentum < 0
      ∨ dot delta sPlus.momentum < 0
  { sMinus := sMinus
    sPlus := sPlus
    current := current
    n := st.n + nPr
    rng := rng3
    done := decide uturn }

/-- `_nuts_wrapper.__call__` (lines 59-100): attach the initial momentum,
draw the slice variable `u` uniformly on `(0, exp(f))` with
`f = log_probability - 0.5 * dot(p, cov.apply(p))`, run the doubling loop
up to `max_depth`, recompute the final state's log-probability, and
return it together with the constant extra log-acceptance factor
`-np.inf` (line 100). -/
def nutsCall {d : ℕ} (tree : TreeOracle d) (maxDepth : ℕ) (expQ : ℚ → ℚ)
    (covA : (Fin d → ℚ) → Fin d → ℚ)
    (computeGrad : NState d → NState d) (computeLogProb : NState d → NState d)
    (s0 : NState d) (p0 : Fin d → ℚ) (rng : Rng) : NState d × XQ :=
  let st := { computeGrad s0 with momentum := p0 }
  let f := st.logProb.subQ (dot p0 (covA p0) / 2)
  let u := (rng.next).1 * expX expQ f
  let final := (List.range maxDepth).foldl (nutsStep tree u)
    { sMinus := st, sPlus := st, current := st, n := 1,
      rng := (rng.next).2, done := false }
  (computeLogProb final.current, XQ.negInf)

/-- The per-walker body of the acceptance loop in
`HamiltonianMove.update` (lines 183-188): when the outer test fires the
returned state is marked accepted, otherwise it is kept exactly as the
wrapper returned it; either way that state is what is appended for the
ensemble update. -/
def hmcMarkAccept {d : ℕ} (st : NState d) (factor : XQ) (old logu : ℚ) :
    NState d :=
  if outerAccept factor st.logProb old logu then
    { st with accepted := true }
  else
    st

/-- C4: every transition returned by the NUTS wrapper carries the
non-finite pass-through log-acceptance factor `-inf`, so the outer
Metropolis test of the enclosing move machinery is false for every
possible uniform draw and leaves the internally selected state exactly as
the no-U-turn construction returned it. -/
theorem nuts_infinite_factor_passthrough {d : ℕ} (tree : TreeOracle d)
    (maxDepth : ℕ) (expQ : ℚ → ℚ) (covA : (Fin d → ℚ) → Fin d → ℚ)
    (computeGrad computeLogProb : NState d → NState d)
    (s0 : NState d) (p0 : Fin d → ℚ) (rng : Rng)
    (stW : NState d) (old logu : ℚ) :
    (nutsCall tree maxDepth expQ covA computeGrad computeLogProb
        s0 p0 rng).2 = XQ.negInf
    ∧ (nutsCall tree maxDepth expQ covA computeGrad computeLogProb
        s0 p0 rng).2.isFinite = false
    ∧ outerAccept
        (nutsCall tree maxDepth expQ covA computeGrad computeLogProb
          s0 p0 rng).2 stW.logProb old logu = false
    ∧ hmcMarkAccept stW
        (nutsCall tree maxDepth expQ covA computeGrad computeLogProb
          s0 p0 rng).2 old logu = stW := by
  have hfac : (nutsCall tree maxDepth expQ covA computeGrad computeLogProb
      s0 p0 rng).2 = XQ.negInf := rfl
  have hacc : ∀ x : XQ, outerAccept XQ.negInf x old logu = false := by
    intro x
    rfl
  refine ⟨hfac, ?_, ?_, ?_⟩
  · rw [hfac]
    rfl
  · rw [hfac]
    exact hacc _
  · rw [hmcMarkAccept, hfac, hacc]
    simp

/-- A feasible edge state used in the NUTS counterexamples. -/
def nA : NState 1 :=
  { coords := fun _ => 0, momentum := fun _ => 1,
    logProb := XQ.fin 0, accepted := false }

/-- A second, distinct state used in the NUTS counterexamples. -/
def nB : NState 1 :=
  { coords := fun _ => 1, momentum := fun _ => 1,
    logProb := XQ.fin 0, accepted := false }

/-- A random stream whose first draw selects direction `v = +1` and whose
second draw is the proposal-replacement uniform `0.7`. -/
def rngC : Rng :=
  { seq := fun k => if k = 0 then 3 / 5 else 7 / 10, k := 0 }

/-- A `build_tree` oracle returning the proposal `nB` with count 1 and a
true continuation flag. -/
def cOracle : TreeOracle 1 :=
  fun _st _u _v _j rng => (nA, nA, nB, 1, true, rng)

/-- The loop state entering a doubling iteration with accumulated count
`n = 1` and current proposal `nA`. -/
def st0 : NutsLoop 1 :=
  { sMinus := nA, sPlus := nA, current := nA, n := 1, rng := rngC,
    done := false }

/-- C2, counterexample: with accumulated count `n = 1`, a new subtree
count `n_pr = 1` and replacement uniform `0.7`, the doubling loop DOES
replace the proposal (the source compares the draw against
`float(n_pr)/n = 1`), although `0.7` is not below the claimed probability
`n_pr / (n + n_pr) = 1/2`, and the replacement visibly changes the
proposal state — so the replacement probability is not
`new_count / (old_count + new_count)`. -/
theorem nuts_top_replace_counterexample :
    (nutsStep cOracle 0 st0 0).current = { nB with accepted := true }
    ∧ ¬ ((7 : ℚ) / 10 < 1 / (1 + 1))
    ∧ { nB with accepted := true } ≠ st0.current := by
  refine ⟨by decide, by norm_num, by decide⟩

/-- C2, amended: at every doubling iteration still running (`done` false)
whose newly built subtree reports a true continuation flag `s`, the
current proposal is replaced by the subtree's proposal exactly when the
freshly drawn uniform is below `n_pr / n` — the new subtree's count over
the count accumulated BEFORE this doubling — i.e. with probability
`min(1, new_count / old_count)`. -/
theorem nuts_top_replace_amended {d : ℕ} (tree : TreeOracle d) (u : ℚ)
    (st : NutsLoop d) (j : ℕ) (hdone : st.done = false)
    (m p pr : NState d) (nPr : ℕ) (rng2 : Rng)
    (htree : tree st.sMinus u (nutsDir st.rng) j ((st.rng.next).2)
      = (m, p, pr, nPr, true, rng2)) :
    (nutsStep tree u st j).current =
      if ((rng2.next).1 < (nPr : ℚ) / st.n) then
        { pr with accepted := true }
      else
        st.current := by
  unfold nutsStep
  rw [hdone]
  simp only [Bool.false_eq_true, if_false, htree, Bool.true_and]
  split
  · next hrep => rw [if_pos (of_decide_eq_true hrep)]
  · next hrep => rw [if_neg (fun hc => hrep (decide_eq_true hc))]

theorem nuts_top_replace_amended_witness :
    (nutsStep cOracle 0 st0 0).current =
      if ((7 : ℚ) / 10 < (1 : ℚ) / 1) then
        { nB with accepted := true }
      else
        st0.current :=
  nuts_top_replace_amended cOracle 0 st0 0 rfl nA nA nB 1
    { seq := rngC.seq, k := 1 } rfl

/-- The echo `build_tree` oracle: reports the edge state it was started
from as every component of the subtree it builds. -/
def eOracle : TreeOracle 1 :=
  fun st _u _v _j rng => (st, st, st, 1, true, rng)

/-- A loop state whose two edges differ, entering an iteration whose
direction draw is `v = +1`. -/
def st1 : NutsLoop 1 :=
  { sMinus := nA, sPlus := nB, current := nA, n := 1, rng := rngC,
    done := false }

/-- C3 (code bug): in a doubling iteration with direction `v = +1` the
source builds the new subtree from `state_minus` (nuts.py line 82), not
from the rightmost edge: with the echo oracle the new rightmost edge
comes back equal to the OLD leftmost edge `nA`, although the iteration
started with rightmost edge `nB ≠ nA`. -/
theorem nuts_plus_direction_uses_minus_edge :
    nutsDir st1.rng = 1
    ∧ (nutsStep eOracle 0 st1 0).sPlus = nA
    ∧ nA ≠ st1.sPlus := by
  refine ⟨by norm_num [nutsDir, st1, rngC, Rng.next], by decide, by decide⟩

/-! ## `moves/mh.py` — the Metropolis-Hastings move

`MHMove.update` computes one proposal for the whole population, runs the
per-walker acceptance test, and commits the whole population with one
`Ensemble.update(states)` call.  The walkers already stored in the
ensemble have finite log-probability by the ensemble invariant (C1), so
their `log_probability` is a plain rational here; proposal states carry
an extended log-probability. -/

/-- A walker committed in the ensemble: coordinates and (finite)
log-probability. -/
structure EWalker (d : ℕ) where
  coords : Fin d → ℚ
  lnprob : ℚ
  deriving DecidableEq

/-- A proposal state as returned by `Ensemble.propose`: coordinates,
extended log-probability, and the acceptance flag (`False` on a freshly
constructed `State`). -/
structure PState (d : ℕ) where
  coords : Fin d → ℚ
  lnprob : XQ
  accepted : Bool
  deriving DecidableEq

/-- The default used only to read list entries at checked indices. -/
def pDefault {d : ℕ} : PState d :=
  { coords := fun _ => 0, lnprob := XQ.negInf, accepted := false }

/-- The default used only to read walker lists at checked indices. -/
def wDefault {d : ℕ} : EWalker d :=
  { coords := fun _ => 0, lnprob := 0 }

/-- `lnpdiff` of `mh.py` lines 53-57:
`state.log_probability - ensemble.walkers[i].log_probability + factor[i]`. -/
def mhLnpdiff (new : XQ) (old fac : ℚ) : XQ :=
  (new.subQ old).addQ fac

/-- The acceptance loop of `MHMove.update` (lines 52-59): for each
walker in order, accept when `lnpdiff > 0.0`, and otherwise draw one
uniform from the stream and accept when it is below `np.exp(lnpdiff)`
(Python's `or` short-circuits, so no draw is consumed when the first
disjunct already holds). -/
def mhAcceptLoop {d : ℕ} (e : ℚ → ℚ) :
    List (EWalker d) → List (PState d) → List ℚ → Rng →
      List (PState d) × Rng
  | w :: ws, s :: ss, f :: fs, rng =>
    if XQ.gtQ (mhLnpdiff s.lnprob w.lnprob f) 0 then
      ({ s with accepted := true } :: (mhAcceptLoop e ws ss fs rng).1,
        (mhAcceptLoop e ws ss fs rng).2)
    else
      ((if (rng.next).1 < expX e (mhLnpdiff s.lnprob w.lnprob f) then
          { s with accepted := true }
        else s) :: (mhAcceptLoop e ws ss fs (rng.next).2).1,
        (mhAcceptLoop e ws ss fs (rng.next).2).2)
  | _, ss, _, rng => (ss, rng)

/-- How many uniforms the acceptance loop consumes over a prefix: one
per walker whose `lnpdiff > 0.0` test fails. -/
def mhDraws {d : ℕ} :
    List (EWalker d) → List (PState d) → List ℚ → ℕ
  | w :: ws, s :: ss, f :: fs =>
    (if XQ.gtQ (mhLnpdiff s.lnprob w.lnprob f) 0 then 0 else 1)
      + mhDraws ws ss fs
  | _, _, _ => 0

/-- Modelled from the spec: the states-accepting `Ensemble.update`
variant that `MHMove.update` calls (`ensemble.update(states)`), which is
not part of the sources (the `ensemble.py` present takes no states
argument); spec section 4.1-4.2: for each index, copy the state's
coordinates and probabilities into the ensemble where accepted,
retaining the old walker where not accepted, and raise the fatal
consistency error if a committed value is non-finite. -/
def updateStates {d : ℕ} :
    List (EWalker d) → List (PState d) → Except String (List (EWalker d))
  | w :: ws, s :: ss =>
    if s.accepted then
      match s.lnprob with
      | XQ.fin x =>
        match updateStates ws ss with
        | Except.ok l => Except.ok ({ coords := s.coords, lnprob := x } :: l)
        | Except.error msg => Except.error msg
      | XQ.negInf => Except.error "An invalid proposal was accepted"
    else
      match updateStates ws ss with
      | Except.ok l => Except.ok (w :: l)
      | Except.error msg => Except.error msg
  | ws, _ => Except.ok ws

/-- `MHMove.update` (lines 30-63): evaluate every candidate row through
one `Ensemble.propose` over the whole population (`zipWith` of the
walker-propose map over the candidate matrix, no splitting), run the
acceptance loop, and commit with one `Ensemble.update` call. -/
def mhMoveUpdate {d : ℕ} (e : ℚ → ℚ)
    (model : EWalker d → (Fin d → ℚ) → PState d)
    (walkers : List (EWalker d)) (q : List (Fin d → ℚ)) (factor : List ℚ)
    (rng : Rng) : Except String (List (EWalker d)) × Rng :=
  (updateStates walkers
      (mhAcceptLoop e walkers (List.zipWith model walkers q) factor rng).1,
    (mhAcceptLoop e walkers (List.zipWith model walkers q) factor rng).2)

/-- The acceptance loop marks walker `i` accepted exactly when
`lnpdiff > 0` or the uniform drawn for it (at stream position: start
plus one per earlier walker that needed a draw) is below
`exp(lnpdiff)`. -/
theorem mhAcceptLoop_accepted {d : ℕ} (e : ℚ → ℚ) :
    ∀ (i : ℕ) (walkers : List (EWalker d)) (states : List (PState d))
      (factor : List ℚ) (rng : Rng),
      i < walkers.length → i < states.length → i < factor.length →
      (states.getD i pDefault).accepted = false →
      ((mhAcceptLoop e walkers states factor rng).1.getD i pDefault).accepted
        = (XQ.gtQ
            (mhLnpdiff (states.getD i pDefault).lnprob
              (walkers.getD i wDefault).lnprob (factor.getD i 0)) 0
          || decide
            (rng.seq (rng.k
                + mhDraws (walkers.take i) (states.take i) (factor.take i))
              < expX e
                (mhLnpdiff (states.getD i pDefault).lnprob
                  (walkers.getD i wDefault).lnprob (factor.getD i 0)))) := by
  intro i
  induction i with
  | zero =>
    intro walkers states factor rng hw hs hf hacc
    match walkers, states, factor with
    | w :: ws, s :: ss, f :: fs =>
      simp only [List.getD_cons_zero] at hacc ⊢
      unfold mhAcceptLoop
      by_cases hgt : XQ.gtQ (mhLnpdiff s.lnprob w.lnprob f) 0 = true
      · simp only [hgt, if_pos, if_true, List.getD_cons_zero, Bool.true_or]
      · rw [if_neg (by simp [hgt])]
        simp only [List.getD_cons_zero, Bool.eq_false_iff.mpr hgt,
          Bool.false_or]
        simp only [List.take_nil, mhDraws, Nat.add_zero, Rng.next]
        split
        · next hlt => simp [decide_eq_true hlt]
        · next hlt => simp [hacc, decide_eq_false hlt]
  | succ i ih =>
    intro walkers states factor rng hw hs hf hacc
    match walkers, states, factor with
    | w :: ws, s :: ss, f :: fs =>
      simp only [List.getD_cons_succ] at hacc ⊢
      unfold mhAcceptLoop
      by_cases hgt : XQ.gtQ (mhLnpdiff s.lnprob w.lnprob f) 0 = true
      · simp only [hgt, if_pos, if_true, List.getD_cons_succ,
          List.take_succ_cons, mhDraws, Nat.zero_add]
        exact ih ws ss fs rng (Nat.lt_of_succ_lt_succ hw)
          (Nat.lt_of_succ_lt_succ hs) (Nat.lt_of_succ_lt_succ hf) hacc
      · rw [if_neg (by simp [hgt])]
        simp only [List.getD_cons_succ, List.take_succ_cons, mhDraws,
          Bool.eq_false_iff.mpr hgt, if_neg]
        rw [ih ws ss fs (rng.next).2 (Nat.lt_of_succ_lt_succ hw)
          (Nat.lt_of_succ_lt_succ hs) (Nat.lt_of_succ_lt_succ hf) hacc]
        simp [Rng.next, Nat.add_assoc]

/-- C7: `MHMove.update` is one whole-population `Ensemble.propose`
(`zipWith` over all walkers, no ensemble splitting) followed by one
whole-population `Ensemble.update` call on the marked states, and walker
`i` is accepted iff `log-ratio[i] + new_log_prob[i] - old_log_prob[i] >
0` or the uniform freshly drawn for it falls below the exponential of
that sum. -/
theorem mh_single_pass_accept_rule {d : ℕ} (e : ℚ → ℚ)
    (model : EWalker d → (Fin d → ℚ) → PState d)
    (walkers : List (EWalker d)) (q : List (Fin d → ℚ)) (factor : List ℚ)
    (rng : Rng) (i : ℕ)
    (hw : i < walkers.length)
    (hs : i < (List.zipWith model walkers q).length)
    (hf : i < factor.length)
    (hacc : ((List.zipWith model walkers q).getD i pDefault).accepted = false) :
    mhMoveUpdate e model walkers q factor rng
      = (updateStates walkers
          (mhAcceptLoop e walkers (List.zipWith model walkers q) factor
            rng).1,
        (mhAcceptLoop e walkers (List.zipWith model walkers q) factor rng).2)
    ∧ ((mhAcceptLoop e walkers (List.zipWith model walkers q) factor
          rng).1.getD i pDefault).accepted
      = (XQ.gtQ
          (mhLnpdiff ((List.zipWith model walkers q).getD i pDefault).lnprob
            (walkers.getD i wDefault).lnprob (factor.getD i 0)) 0
        || decide
          (rng.seq (rng.k
              + mhDraws (walkers.take i)
                ((List.zipWith model walkers q).take i) (factor.take i))
            < expX e
              (mhLnpdiff
                ((List.zipWith model walkers q).getD i pDefault).lnprob
                (walkers.getD i wDefault).lnprob (factor.getD i 0)))) :=
  ⟨rfl, mhAcceptLoop_accepted e i walkers (List.zipWith model walkers q)
    factor rng hw hs hf hacc⟩

/-- A concrete proposal map for the MH witness. -/
def mhModelW : EWalker 1 → (Fin 1 → ℚ) → PState 1 :=
  fun _ c => { coords := c, lnprob := XQ.fin 0, accepted := false }

/-- A concrete commited walker for the MH witness. -/
def mhW : EWalker 1 := { coords := fun _ => 0, lnprob := 1 }

/-- A concrete candidate coordinate row for the MH witness. -/
def mhQrow : Fin 1 → ℚ := fun _ => 2

/-- A concrete random stream for the MH witness. -/
def mhRng : Rng := { seq := fun _ => 1 / 3, k := 0 }

theorem mh_single_pass_accept_rule_witness :
    mhMoveUpdate (fun x => x) mhModelW [mhW] [mhQrow] [0] mhRng
      = (updateStates [mhW]
          (mhAcceptLoop (fun x => x) [mhW]
            (List.zipWith mhModelW [mhW] [mhQrow]) [0] mhRng).1,
        (mhAcceptLoop (fun x => x) [mhW]
          (List.zipWith mhModelW [mhW] [mhQrow]) [0] mhRng).2)
    ∧ ((mhAcceptLoop (fun x => x) [mhW]
          (List.zipWith mhModelW [mhW] [mhQrow]) [0] mhRng).1.getD 0
          pDefault).accepted
      = (XQ.gtQ
          (mhLnpdiff
            ((List.zipWith mhModelW [mhW] [mhQrow]).getD 0 pDefault).lnprob
            ([mhW].getD 0 wDefault).lnprob ([(0 : ℚ)].getD 0 0)) 0
        || decide
          (mhRng.seq (mhRng.k
              + mhDraws ([mhW].take 0)
                ((List.zipWith mhModelW [mhW] [mhQrow]).take 0)
                ([(0 : ℚ)].take 0))
            < expX (fun x => x)
              (mhLnpdiff
                ((List.zipWith mhModelW [mhW] [mhQrow]).getD 0
                  pDefault).lnprob
                ([mhW].getD 0 wDefault).lnprob ([(0 : ℚ)].getD 0 0)))) :=
  mh_single_pass_accept_rule (fun x => x) mhModelW [mhW] [mhQrow] [0]
    mhRng 0 (by decide) (by decide) (by decide) (by decide)

/-! ## `moves/de_snooker.py` — the snooker differential-evolution proposal

`DESnookerMove.get_proposal` (lines 30-42), per set walker, given the
three distinct complement members `(z, z1, z2)` drawn without
replacement by `ens.random.choice(Nc, 3, replace=False)` (an external
numpy primitive whose contract guarantees distinctness).  `np.sqrt` and
`np.log` are abstract function parameters: the statement proved holds
for any interpretation of them. -/

/-- The body of `DESnookerMove.get_proposal` for one set walker `s` with
drawn complement members `z, z1, z2`: `delta = s - z`,
`norm = ‖delta‖ = sqrt(dot delta delta)`, `u = delta / sqrt(norm)`,
candidate `q[i] = s[i] + u * gammas * (dot(u, z1) - dot(u, z2))`, and
log-ratio `0.5 * (ndim - 1.0) * (log ‖q - z‖ - log norm)`. -/
def deSnookerProposal {d : ℕ} (sqrtQ logQ : ℚ → ℚ) (gammas : ℚ)
    (s z z1 z2 : Fin d → ℚ) : (Fin d → ℚ) × ℚ :=
  let delta := s - z
  let norm := sqrtQ (dot delta delta)
  let u := fun i => delta i / sqrtQ norm
  let q := fun i => s i + u i * gammas * (dot u z1 - dot u z2)
  (q, 1 / 2 * ((d : ℚ) - 1) * (logQ (sqrtQ (dot (q - z) (q - z))) - logQ norm))

/-- The candidate and log-ratio as the spec words them: unit vector
`u = (s - z) / sqrt(norm(s - z))`, candidate
`q = s + u * gamma * (u. z1 - u. z2)`, log-ratio
`((ndim - 1) / 2) * (log norm(q - z) - log norm(s - z))`. -/
def deSnookerSpecProposal {d : ℕ} (sqrtQ logQ : ℚ → ℚ) (gammas : ℚ)
    (s z z1 z2 : Fin d → ℚ) : (Fin d → ℚ) × ℚ :=
  let u := fun i => (s - z) i / sqrtQ (sqrtQ (dot (s - z) (s - z)))
  let q := fun i => s i + u i * gammas * (dot u z1 - dot u z2)
  (q, ((d : ℚ) - 1) / 2
    * (logQ (sqrtQ (dot (q - z) (q - z)))
      - logQ (sqrtQ (dot (s - z) (s - z)))))

/-- The default stretch factor `gammas = 1.7` of
`DESnookerMove.__init__`. -/
def defaultGammas : ℚ := 17 / 10

/-- C8: for every set walker `s` and drawn complement members
`(z, z1, z2)`, `DESnookerMove.get_proposal` returns exactly the
candidate `q = s + u*gamma*(u.z1 - u.z2)` with
`u = (s - z)/sqrt(norm(s - z))` and the log-proposal-ratio
`((ndim - 1)/2) * (log norm(q - z) - log norm(s - z))`, and the default
`gammas` is `1.7`. -/
theorem de_snooker_proposal_formula {d : ℕ} (sqrtQ logQ : ℚ → ℚ)
    (gammas : ℚ) (s z z1 z2 : Fin d → ℚ) :
    deSnookerProposal sqrtQ logQ gammas s z z1 z2
      = deSnookerSpecProposal sqrtQ logQ gammas s z z1 z2
    ∧ defaultGammas = 17 / 10 := by
  refine ⟨?_, rfl⟩
  unfold deSnookerProposal deSnookerSpecProposal
  apply Prod.ext
  · rfl
  · have hco : (1 : ℚ) / 2 * ((d : ℚ) - 1) = ((d : ℚ) - 1) / 2 := by ring
    show 1 / 2 * ((d : ℚ) - 1) * _ = ((d : ℚ) - 1) / 2 * _
    rw [hco]

/-! ## `backends/default.py` and `backends/hdf.py` — chain storage

`DefaultBackend.extend` (lines 38-49) and `HDFBackend.extend` (lines
37-76), modelled by their effect on the stored iteration counter, stored
size and the leading dimension of the allocated datasets. -/

/-- The `DefaultBackend` storage state: committed iteration count, the
stored `size`, and the leading dimension of the allocated arrays
(`none` before the first allocation, mirroring `_coords is None`). -/
structure DefaultBackend where
  niter : ℕ
  size : ℕ
  alloc : Option ℕ
  deriving DecidableEq

/-- `DefaultBackend.extend` (lines 38-49): `size = l = niter + n` and
the three arrays are freshly allocated or resized to `l` leading rows. -/
def DefaultBackend.extend (b : DefaultBackend) (n : ℕ) : DefaultBackend :=
  { b with size := b.niter + n, alloc := some (b.niter + n) }

/-- The HDF file state seen through the backend: the `initialized` flag,
the `niter` and `size` group attributes and the leading dimension of the
`coords` / `lnprior` / `lnlike` datasets. -/
structure HDFState where
  initialized : Bool
  niterAttr : ℕ
  sizeAttr : ℕ
  rows : ℕ
  deriving DecidableEq

/-- `HDFBackend.extend` (lines 37-76).  On first use it creates the
group with `niter = 0`, `size = n` and datasets of `n` rows.  Once
initialized, it computes `l = niter + n` and resizes the datasets to `l`
rows, but writes the `size` attribute back with the OLD value it just
read (`g.attrs["size"] = size`, line 67), leaving the stored size
unchanged. -/
def HDFState.extend (b : HDFState) (n : ℕ) : HDFState :=
  if b.initialized then
    { b with sizeAttr := b.sizeAttr, rows := b.niterAttr + n }
  else
    { initialized := true, niterAttr := 0, sizeAttr := n, rows := n }

/-- `HDFBackend.update` (lines 78-100), capacity logic only: when
`niter >= size` it first calls `extend(niter - size + 1)`, then records
the row and increments the `niter` attribute. -/
def HDFState.update (b : HDFState) : HDFState :=
  if b.sizeAttr ≤ b.niterAttr then
    { b.extend (b.niterAttr - b.sizeAttr + 1) with
      niterAttr := (b.extend (b.niterAttr - b.sizeAttr + 1)).niterAttr + 1 }
  else
    { b with niterAttr := b.niterAttr + 1 }

/-- C9 (code bug): the in-memory backend does grow its stored size to
`niter + n` (and allocates that many rows), but the initialized
HDF-backed `extend` leaves the stored `size` attribute unchanged even
though it resizes the datasets: from `niter = 2, size = 2`, `extend 3`
yields datasets of 5 rows with stored size still `2` (not `2 + 3`), so
the very next `update` finds `niter >= size` and immediately
re-extends — here shrinking the datasets back to 3 rows. -/
theorem backend_extend_capacity :
    (∀ (b : DefaultBackend) (n : ℕ),
      (b.extend n).size = b.niter + n ∧ (b.extend n).alloc = some (b.niter + n))
    ∧ (HDFState.extend ⟨true, 2, 2, 2⟩ 3).rows = 5
    ∧ (HDFState.extend ⟨true, 2, 2, 2⟩ 3).sizeAttr = 2
    ∧ (HDFState.extend ⟨true, 2, 2, 2⟩ 3).sizeAttr ≠ 2 + 3
    ∧ (HDFState.update (HDFState.extend ⟨true, 2, 2, 2⟩ 3)).rows = 3 :=
  ⟨fun _ _ => ⟨rfl, rfl⟩, rfl, rfl, by decide, rfl⟩

/-! ## `numgrad.py` — finite-difference gradient wrappers

`numerical_gradient_1.__call__` (lines 26-34) and
`numerical_gradient_2.__call__` (lines 54-63) perturb each coordinate of
the argument array in place and write the original value back before
moving on.  Each embedded call returns the pair (argument array after
the call, gradient array), so the frame property is the first
component. -/

/-- One iteration of the first-order loop: set `x[i] = v + eps` with
`v` the entry read by `enumerate`, evaluate `f`, store
`(y - y0)/eps` in `g[i]`, and restore `x[i] = v`. -/
def ng1Step (f : List ℚ → ℚ) (eps y0 : ℚ) (st : List ℚ × List ℚ)
    (i : ℕ) : List ℚ × List ℚ :=
  ((st.1.set i (st.1.getD i 0 + eps)).set i (st.1.getD i 0),
    st.2.set i ((f (st.1.set i (st.1.getD i 0 + eps)) - y0) / eps))

/-- `numerical_gradient_1.__call__`: `y0 = f(x)`, then the in-place
forward-difference loop over all indices, with `g` starting as
`np.zeros(len(x))`. -/
def numerical_gradient_1 (f : List ℚ → ℚ) (eps : ℚ) (x : List ℚ) :
    List ℚ × List ℚ :=
  (List.range x.length).foldl (ng1Step f eps (f x))
    (x, List.replicate x.length 0)

/-- One iteration of the second-order loop: set `x[i] = v + eps`,
evaluate, set `x[i] = v - eps`, evaluate, store the central difference
in `g[i]`, and restore `x[i] = v`. -/
def ng2Step (f : List ℚ → ℚ) (eps : ℚ) (st : List ℚ × List ℚ)
    (i : ℕ) : List ℚ × List ℚ :=
  (((st.1.set i (st.1.getD i 0 + eps)).set i (st.1.getD i 0 - eps)).set i
      (st.1.getD i 0),
    st.2.set i (1 / 2 * (f (st.1.set i (st.1.getD i 0 + eps))
      - f ((st.1.set i (st.1.getD i 0 + eps)).set i (st.1.getD i 0 - eps)))
      / eps))

/-- `numerical_gradient_2.__call__`: the in-place central-difference
loop over all indices. -/
def numerical_gradient_2 (f : List ℚ → ℚ) (eps : ℚ) (x : List ℚ) :
    List ℚ × List ℚ :=
  (List.range x.length).foldl (ng2Step f eps)
    (x, List.replicate x.length 0)

/-- Writing back the value just read leaves the list unchanged. -/
theorem set_getD_self : ∀ (l : List ℚ) (i : ℕ), l.set i (l.getD i 0) = l := by
  intro l
  induction l with
  | nil => intro i; rfl
  | cons a t ih =>
    intro i
    cases i with
    | zero => rfl
    | succ j => exact congrArg (List.cons a) (ih j)

/-- A fold whose step preserves the first component preserves it
overall. -/
theorem foldl_fst_eq (step : List ℚ × List ℚ → ℕ → List ℚ × List ℚ)
    (h : ∀ st i, (step st i).1 = st.1) :
    ∀ (l : List ℕ) (st : List ℚ × List ℚ), (l.foldl step st).1 = st.1 := by
  intro l
  induction l with
  | nil => intro st; rfl
  | cons a t ih =>
    intro st
    rw [List.foldl_cons, ih (step st a), h st a]

/-- C10: both finite-difference wrappers restore every perturbed
coordinate, so the argument vector is unchanged on return. -/
theorem numgrad_argument_restored (f g : List ℚ → ℚ) (eps1 eps2 : ℚ)
    (x y : List ℚ) :
    (numerical_gradient_1 f eps1 x).1 = x
    ∧ (numerical_gradient_2 g eps2 y).1 = y := by
  constructor
  · unfold numerical_gradient_1
    rw [foldl_fst_eq _ (fun st i => by
      show ((st.1.set i (st.1.getD i 0 + eps1)).set i (st.1.getD i 0)) = st.1
      rw [List.set_set, set_getD_self])]
  · unfold numerical_gradient_2
    rw [foldl_fst_eq _ (fun st i => by
      show (((st.1.set i (st.1.getD i 0 + eps2)).set i
          (st.1.getD i 0 - eps2)).set i (st.1.getD i 0)) = st.1
      rw [List.set_set, List.set_set, set_getD_self])]

end Emcee
